import Mathlib

/-!
Shallow embedding of the krabbos kernel's virtual-memory layer
(`src/memory/paging.rs`) and of the IDT entry construction
(`src/tables/idt.rs`), with theorems settling the frozen claims.

Machine integers are modelled as `Nat` with explicit `% 2^w` at the points
where the Rust code can wrap (release-mode semantics of `u64`/`u16`
arithmetic). Fallible Rust code returns `Except`/`Option`; the one
`panic!` reachable from the translation walk is modelled as a dedicated
result constructor.
-/

namespace Krabbos

/-- Rust `!x` on a `u64`: the bitwise complement within 64 bits, which for
`x < 2^64` is numerically `2^64 - 1 - x`. -/
def u64_not (x : Nat) : Nat := 2 ^ 64 - 1 - x

/-- `PAGE_4KB_SIZE` from `src/memory/paging.rs`. -/
def PAGE_4KB_SIZE : Nat := 0x1000

/-- `PhysAddr::align_down` for `u64` (paging.rs line 162):
`*self & !(value - 1)`. -/
def align_down (a value : Nat) : Nat := a &&& u64_not (value - 1)

/-- `PhysAddr::is_aligned` for `u64` (paging.rs line 158):
`self.align_down(value) == *self`. -/
def is_aligned (a value : Nat) : Bool := align_down a value == a

/-- `PageTableIndex::new_truncate` (paging.rs line 474): `index % ENTRY_COUNT`
on a `u16` argument (`ENTRY_COUNT = 512`). -/
def PageTableIndex.new_truncate (index : Nat) : Nat := index % 512

/-- `PageOffset::new_truncate` (paging.rs line 530): `offset % (1 << 12)` on a
`u16` argument. -/
def PageOffset.new_truncate (offset : Nat) : Nat := offset % (1 <<< 12)

/-- `VirtAddr::page_offset` for `u64` (paging.rs line 80):
`PageOffset::new_truncate(self as u16)`; the `as u16` cast is `% 2^16`. -/
def page_offset (a : Nat) : Nat := PageOffset.new_truncate (a % 2 ^ 16)

/-- `VirtAddr::p1_index` (paging.rs line 84): `new_truncate((self >> 12) as u16)`. -/
def p1_index (a : Nat) : Nat := PageTableIndex.new_truncate ((a >>> 12) % 2 ^ 16)

/-- `VirtAddr::p2_index` (paging.rs line 90). -/
def p2_index (a : Nat) : Nat := PageTableIndex.new_truncate ((a >>> 12 >>> 9) % 2 ^ 16)

/-- `VirtAddr::p3_index` (paging.rs line 96). -/
def p3_index (a : Nat) : Nat := PageTableIndex.new_truncate ((a >>> 12 >>> 9 >>> 9) % 2 ^ 16)

/-- `VirtAddr::p4_index` (paging.rs line 102). -/
def p4_index (a : Nat) : Nat := PageTableIndex.new_truncate ((a >>> 12 >>> 9 >>> 9 >>> 9) % 2 ^ 16)

/-- Reinterpret a `u64` bit pattern as an `i64` (Rust `as i64`). -/
def u64_as_i64 (n : Nat) : Int := if n < 2 ^ 63 then (n : Int) else (n : Int) - 2 ^ 64

/-- Reinterpret an `i64` value as a `u64` bit pattern (Rust `as u64`). -/
def i64_as_u64 (x : Int) : Nat := (x % (2 ^ 64 : Int)).toNat

/-- `VirtAddr::new_virt_truncate` (paging.rs lines 106-110):
`((addr << 16) as i64 >> 16) as u64`. The `u64` left shift wraps mod `2^64`;
the signed right shift is an arithmetic shift, i.e. floor division. -/
def new_virt_truncate (addr : Nat) : Nat :=
  i64_as_u64 (Int.fdiv (u64_as_i64 ((addr <<< 16) % 2 ^ 64)) (2 ^ 16))

/-- `FrameError` (paging.rs lines 174-180). -/
inductive FrameError
  | FrameNotPresent
  | HugeFrame
deriving DecidableEq, Repr

/-- `PageTableFlags::PRESENT` (paging.rs line 280). -/
def PRESENT : Nat := 1

/-- `PageTableFlags::HUGE_PAGE` (paging.rs line 300). -/
def HUGE_PAGE : Nat := 1 <<< 7

/-- Union of all flag bits declared in the `bitflags!` block of paging.rs
(bits 0-11 and 52-63): the mask `from_bits_truncate` keeps. -/
def FLAGS_ALL : Nat := 0xFFF0000000000FFF

/-- `PageTableEntry::flags` (paging.rs line 210): `from_bits_truncate(self.entry)`,
which keeps exactly the declared flag bits. -/
def PageTableEntry.flags (entry : Nat) : Nat := entry &&& FLAGS_ALL

/-- `bitflags` `contains`: all bits of `other` are set in `f`. -/
def flags_contains (f other : Nat) : Bool := f &&& other == other

/-- `PageTableEntry::addr` (paging.rs line 216): `self.entry & 0x000ffffffffff000`. -/
def PageTableEntry.addr (entry : Nat) : Nat := entry &&& 0x000ffffffffff000

/-- `PageTableEntry::frame` (paging.rs lines 228-236). -/
def PageTableEntry.frame (entry : Nat) : Except FrameError Nat :=
  if ¬ flags_contains (PageTableEntry.flags entry) PRESENT then
    .error .FrameNotPresent
  else if flags_contains (PageTableEntry.flags entry) HUGE_PAGE then
    .error .HugeFrame
  else
    .ok (align_down (PageTableEntry.addr entry) PAGE_4KB_SIZE)

/-- `read_cr3` (paging.rs lines 15-23) as a function of the raw register value:
`frame &= 0x_000f_ffff_ffff_f000; frame.align_down(PAGE_4KB_SIZE)`. -/
def read_cr3 (cr3 : Nat) : Nat := align_down (cr3 &&& 0x000ffffffffff000) PAGE_4KB_SIZE

/-- Outcome of the translation walk. `panicHuge` models the
`panic!("huge pages not supported")` on line 58 of paging.rs: control never
returns a value to the caller in that case. -/
inductive TranslateResult
  | ok (pa : Nat)
  | notPresent
  | panicHuge
deriving DecidableEq, Repr

/-- The loop body of `inner_translate_addr` (paging.rs lines 47-63), iterating
over a list of table indices. Physical memory is an arena `mem` mapping a
64-bit address to the 8-byte entry value stored there; the entry read for
index `i` of the table whose frame is `frame` lives at
`phys_mem_offset + frame + 8 * i` (all `u64` arithmetic, wrapping). -/
def translate_walk (mem : Nat → Nat) (pmo addr : Nat) : List Nat → Nat → TranslateResult
  | [], frame => .ok ((frame + page_offset addr) % 2 ^ 64)
  | index :: rest, frame =>
    let virt := (pmo + frame) % 2 ^ 64
    let entry := mem ((virt + 8 * index) % 2 ^ 64)
    match PageTableEntry.frame entry with
    | .ok f => translate_walk mem pmo addr rest f
    | .error .FrameNotPresent => .notPresent
    | .error .HugeFrame => .panicHuge

/-- `inner_translate_addr` (paging.rs lines 42-64): note the source builds
`table_indexes = [addr.p1_index(), addr.p2_index(), addr.p3_index(), addr.p4_index()]`
and walks them in that order. -/
def inner_translate_addr (mem : Nat → Nat) (cr3 pmo addr : Nat) : TranslateResult :=
  translate_walk mem pmo addr [p1_index addr, p2_index addr, p3_index addr, p4_index addr]
    (read_cr3 cr3)

/-- Modelled from the spec (section 4.3), for comparison with
`inner_translate_addr`: "for levels 4→1, compute that level's 9-bit index,
form the table's dereferenceable address via the physical-memory offset,
index the entry" — i.e. the walk visits the indices in order p4, p3, p2, p1. -/
def spec_translate_addr (mem : Nat → Nat) (cr3 pmo addr : Nat) : TranslateResult :=
  translate_walk mem pmo addr [p4_index addr, p3_index addr, p2_index addr, p1_index addr]
    (read_cr3 cr3)

/-- The reassembly `p4<<39 | p3<<30 | p2<<21 | p1<<12 | offset` from the
spec's testable property for C6, applied to the indices of `a`. -/
def reassemble (a : Nat) : Nat :=
  (p4_index a <<< 39) ||| ((p3_index a <<< 30) |||
    ((p2_index a <<< 21) ||| ((p1_index a <<< 12) ||| page_offset a)))

/-- The spec's synthetic 4-level chain for C1, laid out for the documented
p4-first walk with `phys_mem_offset = 0` and the root table at `0x1000`:
the level-4 entry at index 1 points at `0x2000`, the level-3 entry at
index 2 at `0x3000`, the level-2 entry at index 3 at `0x5000`, and the
level-1 entry at index 4 maps frame `0x4000`; every entry is PRESENT. -/
def chain_mem : Nat → Nat := fun a =>
  if a = 0x1000 + 8 * 1 then 0x2001
  else if a = 0x2000 + 8 * 2 then 0x3001
  else if a = 0x3000 + 8 * 3 then 0x5001
  else if a = 0x5000 + 8 * 4 then 0x4001
  else 0

/-- The virtual address whose indices select exactly the chain's entries
(p4 = 1, p3 = 2, p2 = 3, p1 = 4) with page offset `0x23`. -/
def chain_addr : Nat := (1 <<< 39) ||| (2 <<< 30) ||| (3 <<< 21) ||| (4 <<< 12) ||| 0x23

/-- A memory whose single entry (read first when translating `0x1000` with
`cr3 = 0x1000`, offset 0) has PRESENT and HUGE_PAGE set. -/
def huge_mem : Nat → Nat := fun a => if a = 0x1008 then 0x2081 else 0

/-- The three page sizes of `PageSize`/`Size4KiB`/`Size2MiB`/`Size1GiB`
(paging.rs lines 613-655). -/
inductive PageSize
  | Size4KiB
  | Size2MiB
  | Size1GiB
deriving DecidableEq, Repr

/-- The `SIZE` constants (paging.rs lines 638-655): 4 KiB, and the 2 MiB /
1 GiB sizes defined as 512-fold multiples. -/
def PageSize.SIZE : PageSize → Nat
  | .Size4KiB => 4096
  | .Size2MiB => 4096 * 512
  | .Size1GiB => 4096 * 512 * 512

/-- `Page<S>` (paging.rs lines 660-663): a start address; the size tag is
passed to the operations instead of a phantom parameter. -/
structure Page where
  start_address : Nat
deriving DecidableEq, Repr

/-- `AddressNotAligned` (paging.rs line 993). -/
structure AddressNotAligned : Type
deriving DecidableEq, Repr

/-- `Page::containing_address` (paging.rs lines 695-700). -/
def Page.containing_address (S : PageSize) (address : Nat) : Page :=
  ⟨align_down address S.SIZE⟩

/-- `Page::from_start_address` (paging.rs lines 673-678). -/
def Page.from_start_address (S : PageSize) (address : Nat) : Except AddressNotAligned Page :=
  if ¬ is_aligned address S.SIZE then .error ⟨⟩
  else .ok (Page.containing_address S address)

/-- Wrapping `u64` subtraction (release semantics), valid for `b ≤ 2^64`. -/
def u64_sub (a b : Nat) : Nat := (a + 2 ^ 64 - b) % 2 ^ 64

/-- `Add<u64> for Page` (paging.rs lines 817-823):
`containing_address(self.start_address() + rhs * S::SIZE)` in wrapping
`u64` arithmetic. -/
def Page.add (S : PageSize) (p : Page) (rhs : Nat) : Page :=
  Page.containing_address S ((p.start_address + rhs * S.SIZE) % 2 ^ 64)

/-- `Sub<u64> for Page` (paging.rs lines 832-838):
`containing_address(self.start_address() - rhs * S::SIZE)` in wrapping
`u64` arithmetic. -/
def Page.sub (S : PageSize) (p : Page) (rhs : Nat) : Page :=
  Page.containing_address S (u64_sub p.start_address (rhs * S.SIZE % 2 ^ 64))

/-- `PageRange` (paging.rs lines 858-863); the source field `end` is a Lean
keyword and is modelled as `end_`. -/
structure PageRange where
  start : Page
  end_ : Page
deriving DecidableEq, Repr

/-- `Iterator::next for PageRange` (paging.rs lines 893-901): while
`start < end`, yield `start` and advance it by one page. -/
def PageRange.next (S : PageSize) (r : PageRange) : Option (Page × PageRange) :=
  if r.start.start_address < r.end_.start_address then
    some (r.start, ⟨Page.add S r.start 1, r.end_⟩)
  else
    none

/-- Runs the `PageRange` iterator for at most `fuel` steps, collecting the
yielded pages. -/
def PageRange.take (S : PageSize) : Nat → PageRange → List Page
  | 0, _ => []
  | fuel + 1, r =>
    match PageRange.next S r with
    | some (p, r2) => p :: PageRange.take S fuel r2
    | none => []

/-- `PageRangeInclusive` (paging.rs lines 927-932). -/
structure PageRangeInclusive where
  start : Page
  end_ : Page
deriving DecidableEq, Repr

/-- `Iterator::next for PageRangeInclusive` (paging.rs lines 962-978):
while `start ≤ end`, yield `start`; if `start` is below
`max_page_addr = u64::MAX - (SIZE - 1)` increment `start`, otherwise
decrement `end` to avoid overflowing `start`. -/
def PageRangeInclusive.next (S : PageSize) (r : PageRangeInclusive) :
    Option (Page × PageRangeInclusive) :=
  if r.start.start_address ≤ r.end_.start_address then
    let max_page_addr := 2 ^ 64 - 1 - (S.SIZE - 1)
    some (r.start,
      if r.start.start_address < max_page_addr then ⟨Page.add S r.start 1, r.end_⟩
      else ⟨r.start, Page.sub S r.end_ 1⟩)
  else
    none

/-- Runs the `PageRangeInclusive` iterator for at most `fuel` steps,
collecting the yielded pages. -/
def PageRangeInclusive.take (S : PageSize) : Nat → PageRangeInclusive → List Page
  | 0, _ => []
  | fuel + 1, r =>
    match PageRangeInclusive.next S r with
    | some (p, r2) => p :: PageRangeInclusive.take S fuel r2
    | none => []

/-- `IDT_ENTRY_OPTION_PRESENT` (idt.rs line 6). -/
def IDT_ENTRY_OPTION_PRESENT : Nat := 0x8000

/-- `IDT_ENTRY_OPTION_INTERRUPT_GATE` (idt.rs line 8). -/
def IDT_ENTRY_OPTION_INTERRUPT_GATE : Nat := 0x0E00

/-- Rust `!x` on a `u16`: the bitwise complement within 16 bits. -/
def u16_not (x : Nat) : Nat := 2 ^ 16 - 1 - x

/-- `IDTEntry` (idt.rs lines 88-95), fields as `Nat` with their widths
enforced at the operations. -/
structure IDTEntry where
  pointer_low : Nat
  cs : Nat
  options : Nat
  pointer_mid : Nat
  pointer_high : Nat
  reserved : Nat
deriving DecidableEq, Repr

/-- `IDTEntry::missing` (idt.rs lines 100-109). -/
def IDTEntry.missing : IDTEntry :=
  { pointer_low := 0, pointer_mid := 0, pointer_high := 0, cs := 0,
    options := IDT_ENTRY_OPTION_INTERRUPT_GATE, reserved := 0 }

/-- `IDTEntry::set_present` (idt.rs lines 124-130): sets or clears bit 15
of the options word. -/
def IDTEntry.set_present (e : IDTEntry) (present : Bool) : IDTEntry :=
  if present then { e with options := e.options ||| 0x8000 }
  else { e with options := e.options &&& u16_not 0x8000 }

/-- `IDTEntry::set_entry` (idt.rs lines 111-121): splits the handler
address, captures the CS register (a parameter here), calls
`set_present(true)`, and then, when an options word is supplied, overwrites
`options` with it. -/
def IDTEntry.set_entry (e : IDTEntry) (addr cs : Nat) (opt : Option Nat) : IDTEntry :=
  let e1 := { e with pointer_low := addr % 2 ^ 16,
                     pointer_mid := (addr >>> 16) % 2 ^ 16,
                     pointer_high := (addr >>> 32) % 2 ^ 32,
                     cs := cs }
  let e2 := e1.set_present true
  match opt with
  | some o => { e2 with options := o }
  | none => e2

/-- The double-fault slot as built by the IDT initializer (idt.rs line 24):
`set_entry(handler, Some(IDT_ENTRY_OPTION_INTERRUPT_GATE | 1))`. -/
def double_fault_idt_entry (addr cs : Nat) : IDTEntry :=
  IDTEntry.set_entry IDTEntry.missing addr cs (some (IDT_ENTRY_OPTION_INTERRUPT_GATE ||| 1))

/-! Helper lemmas. -/

theorem new_virt_truncate_eq (a : Nat) :
    new_virt_truncate a =
      if a % 2 ^ 48 < 2 ^ 47 then a % 2 ^ 48 else a % 2 ^ 48 + (2 ^ 64 - 2 ^ 48) := by
  unfold new_virt_truncate u64_as_i64 i64_as_u64
  have hshift : (a <<< 16) % 2 ^ 64 = (a % 2 ^ 48) * 2 ^ 16 := by
    rw [Nat.shiftLeft_eq]
    have h : (2 : Nat) ^ 64 = 2 ^ 48 * 2 ^ 16 := by norm_num
    rw [h, Nat.mul_mod_mul_right]
  rw [hshift]
  have hm : a % 2 ^ 48 < 2 ^ 48 := Nat.mod_lt _ (by norm_num)
  set m := a % 2 ^ 48 with hmdef
  by_cases hc : m < 2 ^ 47
  · have h1 : m * 2 ^ 16 < 2 ^ 63 := by omega
    rw [if_pos h1, if_pos hc]
    have h2 : ((m * 2 ^ 16 : Nat) : Int) = (m : Int) * 2 ^ 16 := by push_cast; ring
    rw [h2, Int.mul_fdiv_cancel _ (by norm_num)]
    have hmi : (m : Int) < 2 ^ 48 := by exact_mod_cast hm
    have h3 : (m : Int) % 2 ^ 64 = (m : Int) := by omega
    rw [h3, Int.toNat_natCast]
  · have h1 : ¬ (m * 2 ^ 16 < 2 ^ 63) := by omega
    rw [if_neg h1, if_neg hc]
    have h2 : ((m * 2 ^ 16 : Nat) : Int) - 2 ^ 64 = ((m : Int) - 2 ^ 48) * 2 ^ 16 := by
      push_cast; ring
    rw [h2, Int.mul_fdiv_cancel _ (by norm_num)]
    have hmi : (m : Int) < 2 ^ 48 := by exact_mod_cast hm
    have hci : (2 : Int) ^ 47 ≤ (m : Int) := by exact_mod_cast Nat.le_of_not_lt hc
    have h3 : ((m : Int) - 2 ^ 48) % 2 ^ 64 = (m : Int) + (2 ^ 64 - 2 ^ 48) := by omega
    rw [h3]
    omega

theorem canonical_bits_high (m : Nat) (h1 : 2 ^ 47 ≤ m) (h2 : m < 2 ^ 48) :
    ∀ i, 47 ≤ i → i ≤ 63 → (m + (2 ^ 64 - 2 ^ 48)).testBit i = true := by
  intro i hi1 hi2
  rw [Nat.testBit_to_div_mod]
  interval_cases i <;> simp only [decide_eq_true_eq] <;> omega

theorem align_down_two_pow (a k : Nat) (hk : k ≤ 64) (ha : a < 2 ^ 64) :
    align_down a (2 ^ k) = a - a % 2 ^ k := by
  unfold align_down u64_not
  have hmask : 2 ^ 64 - 1 - (2 ^ k - 1) = (2 ^ (64 - k) - 1) <<< k := by
    rw [Nat.shiftLeft_eq]
    have h2 : (2 : Nat) ^ (64 - k) * 2 ^ k = 2 ^ 64 := by
      rw [← pow_add]
      congr 1
      omega
    have h3 : (2 ^ (64 - k) - 1) * 2 ^ k = 2 ^ 64 - 2 ^ k := by
      rw [Nat.sub_mul, one_mul, h2]
    have h4 : (1 : Nat) ≤ 2 ^ k := Nat.one_le_two_pow
    omega
  rw [hmask]
  have hdm := Nat.div_add_mod a (2 ^ k)
  have hsub : a - a % 2 ^ k = (a / 2 ^ k) <<< k := by
    rw [Nat.shiftLeft_eq, Nat.mul_comm]
    omega
  rw [hsub]
  apply Nat.eq_of_testBit_eq
  intro i
  rw [Nat.testBit_and, Nat.testBit_shiftLeft, Nat.testBit_shiftLeft]
  by_cases hik : k ≤ i
  · simp only [ge_iff_le, hik, decide_True, Bool.true_and]
    rw [Nat.testBit_two_pow_sub_one]
    have hdiv : (a / 2 ^ k).testBit (i - k) = a.testBit i := by
      rw [← Nat.shiftRight_eq_div_pow, Nat.testBit_shiftRight]
      congr 1
      omega
    rw [hdiv]
    by_cases hi64 : i < 64
    · have : i - k < 64 - k := by omega
      simp [this]
    · have h1 : a.testBit i = false :=
        Nat.testBit_lt_two_pow (lt_of_lt_of_le ha (Nat.pow_le_pow_right (by norm_num) (by omega)))
      have h2 : ¬ (i - k < 64 - k) := by omega
      simp [h1, h2]
  · simp [hik]

theorem is_aligned_iff (a k : Nat) (hk : k ≤ 64) (ha : a < 2 ^ 64) :
    is_aligned a (2 ^ k) = true ↔ a % 2 ^ k = 0 := by
  unfold is_aligned
  rw [beq_iff_eq, align_down_two_pow a k hk ha]
  have := Nat.mod_le a (2 ^ k)
  omega

theorem page_offset_eq (a : Nat) : page_offset a = a % 4096 := by
  unfold page_offset PageOffset.new_truncate
  have h : (1 : Nat) <<< 12 = 4096 := by decide
  rw [h]
  exact Nat.mod_mod_of_dvd a (by norm_num)

theorem p1_index_eq (a : Nat) : p1_index a = a / 2 ^ 12 % 512 := by
  unfold p1_index PageTableIndex.new_truncate
  rw [Nat.shiftRight_eq_div_pow]
  exact Nat.mod_mod_of_dvd _ (by norm_num)

theorem p2_index_eq (a : Nat) : p2_index a = a / 2 ^ 21 % 512 := by
  unfold p2_index PageTableIndex.new_truncate
  rw [Nat.shiftRight_eq_div_pow, Nat.shiftRight_eq_div_pow, Nat.div_div_eq_div_mul]
  norm_num

theorem p3_index_eq (a : Nat) : p3_index a = a / 2 ^ 30 % 512 := by
  unfold p3_index PageTableIndex.new_truncate
  rw [Nat.shiftRight_eq_div_pow, Nat.shiftRight_eq_div_pow, Nat.shiftRight_eq_div_pow,
    Nat.div_div_eq_div_mul, Nat.div_div_eq_div_mul]
  norm_num

theorem p4_index_eq (a : Nat) : p4_index a = a / 2 ^ 39 % 512 := by
  unfold p4_index PageTableIndex.new_truncate
  rw [Nat.shiftRight_eq_div_pow, Nat.shiftRight_eq_div_pow, Nat.shiftRight_eq_div_pow,
    Nat.shiftRight_eq_div_pow, Nat.div_div_eq_div_mul, Nat.div_div_eq_div_mul,
    Nat.div_div_eq_div_mul]
  norm_num

theorem reassemble_eq (a : Nat) : reassemble a = a % 2 ^ 48 := by
  unfold reassemble
  rw [page_offset_eq, p1_index_eq, p2_index_eq, p3_index_eq, p4_index_eq]
  have b1 : a % 4096 < 2 ^ 12 := by omega
  have e1 : (a / 2 ^ 12 % 512) <<< 12 ||| a % 4096
      = 2 ^ 12 * (a / 2 ^ 12 % 512) + a % 4096 := by
    rw [Nat.shiftLeft_eq, Nat.mul_comm]
    exact (Nat.mul_add_lt_is_or b1 _).symm
  rw [e1]
  have b2 : 2 ^ 12 * (a / 2 ^ 12 % 512) + a % 4096 < 2 ^ 21 := by omega
  have e2 : (a / 2 ^ 21 % 512) <<< 21 ||| (2 ^ 12 * (a / 2 ^ 12 % 512) + a % 4096)
      = 2 ^ 21 * (a / 2 ^ 21 % 512) + (2 ^ 12 * (a / 2 ^ 12 % 512) + a % 4096) := by
    rw [Nat.shiftLeft_eq, Nat.mul_comm]
    exact (Nat.mul_add_lt_is_or b2 _).symm
  rw [e2]
  have b3 : 2 ^ 21 * (a / 2 ^ 21 % 512) + (2 ^ 12 * (a / 2 ^ 12 % 512) + a % 4096)
      < 2 ^ 30 := by omega
  have e3 : (a / 2 ^ 30 % 512) <<< 30
        ||| (2 ^ 21 * (a / 2 ^ 21 % 512) + (2 ^ 12 * (a / 2 ^ 12 % 512) + a % 4096))
      = 2 ^ 30 * (a / 2 ^ 30 % 512)
        + (2 ^ 21 * (a / 2 ^ 21 % 512) + (2 ^ 12 * (a / 2 ^ 12 % 512) + a % 4096)) := by
    rw [Nat.shiftLeft_eq, Nat.mul_comm]
    exact (Nat.mul_add_lt_is_or b3 _).symm
  rw [e3]
  have b4 : 2 ^ 30 * (a / 2 ^ 30 % 512)
        + (2 ^ 21 * (a / 2 ^ 21 % 512) + (2 ^ 12 * (a / 2 ^ 12 % 512) + a % 4096))
      < 2 ^ 39 := by omega
  have e4 : (a / 2 ^ 39 % 512) <<< 39
        ||| (2 ^ 30 * (a / 2 ^ 30 % 512)
          + (2 ^ 21 * (a / 2 ^ 21 % 512) + (2 ^ 12 * (a / 2 ^ 12 % 512) + a % 4096)))
      = 2 ^ 39 * (a / 2 ^ 39 % 512)
        + (2 ^ 30 * (a / 2 ^ 30 % 512)
          + (2 ^ 21 * (a / 2 ^ 21 % 512) + (2 ^ 12 * (a / 2 ^ 12 % 512) + a % 4096))) := by
    rw [Nat.shiftLeft_eq, Nat.mul_comm]
    exact (Nat.mul_add_lt_is_or b4 _).symm
  rw [e4]
  omega

theorem PageSize.size_two_pow (S : PageSize) : ∃ k, 12 ≤ k ∧ k ≤ 30 ∧ S.SIZE = 2 ^ k := by
  cases S
  · exact ⟨12, by norm_num, by norm_num, by norm_num [PageSize.SIZE]⟩
  · exact ⟨21, by norm_num, by norm_num, by norm_num [PageSize.SIZE]⟩
  · exact ⟨30, by norm_num, by norm_num, by norm_num [PageSize.SIZE]⟩

theorem aligned_add_le {p a b : Nat} (_hp : 0 < p) (ha : p ∣ a) (hb : p ∣ b)
    (hab : a < b) : a + p ≤ b := by
  obtain ⟨qa, rfl⟩ := ha
  obtain ⟨qb, rfl⟩ := hb
  have hq : qa < qb := by
    rcases Nat.lt_or_ge qa qb with h | h
    · exact h
    · exact absurd (Nat.mul_le_mul_left p h) (Nat.not_le_of_lt hab)
  calc p * qa + p = p * (qa + 1) := by ring
    _ ≤ p * qb := Nat.mul_le_mul_left p hq

theorem aligned_eq_of_lt_add {p a b : Nat} (hp : 0 < p) (ha : p ∣ a) (hb : p ∣ b)
    (h1 : b ≤ a) (h2 : a < b + p) : a = b := by
  rcases Nat.eq_or_lt_of_le h1 with h | h
  · exact h.symm
  · exact absurd (aligned_add_le hp hb ha h) (by omega)

theorem align_down_id {a k : Nat} (hk : k ≤ 64) (ha64 : a < 2 ^ 64)
    (ha : a % 2 ^ k = 0) : align_down a (2 ^ k) = a := by
  rw [align_down_two_pow a k hk ha64, ha, Nat.sub_zero]

theorem page_ext {p q : Page} (h : p.start_address = q.start_address) : p = q := by
  cases p
  cases q
  cases h
  rfl

theorem frame_huge_of_flags (e : Nat)
    (hp : flags_contains (PageTableEntry.flags e) PRESENT = true)
    (hh : flags_contains (PageTableEntry.flags e) HUGE_PAGE = true) :
    PageTableEntry.frame e = .error .HugeFrame := by
  unfold PageTableEntry.frame
  rw [hp, hh]
  simp

theorem frame_not_present_of_flags (e : Nat)
    (hp : flags_contains (PageTableEntry.flags e) PRESENT = false) :
    PageTableEntry.frame e = .error .FrameNotPresent := by
  unfold PageTableEntry.frame
  rw [hp]
  simp

theorem range_take_count (S : PageSize) (k : Nat) (hS : S.SIZE = 2 ^ k) (hk : k ≤ 63) :
    ∀ N fuel a, a % 2 ^ k = 0 → a + N * 2 ^ k < 2 ^ 64 → N ≤ fuel →
    PageRange.take S fuel ⟨⟨a⟩, ⟨a + N * 2 ^ k⟩⟩
      = (List.range N).map (fun i => (⟨a + i * 2 ^ k⟩ : Page)) := by
  intro N
  induction N with
  | zero =>
    intro fuel a ha hlt hfuel
    cases fuel with
    | zero => rfl
    | succ n => simp [PageRange.take, PageRange.next]
  | succ N ih =>
    intro fuel a ha hlt hfuel
    cases fuel with
    | zero => omega
    | succ n =>
      have hx0 : (0:Nat) < 2 ^ k := Nat.two_pow_pos k
      have h1 : 1 * 2 ^ k ≤ (N + 1) * 2 ^ k :=
        Nat.mul_le_mul_right (2 ^ k) (by omega)
      have hlt' : a < a + (N + 1) * 2 ^ k := by omega
      have hadd : Page.add S ⟨a⟩ 1 = (⟨a + 2 ^ k⟩ : Page) := by
        unfold Page.add Page.containing_address
        rw [hS]
        simp only
        congr 1
        rw [one_mul, Nat.mod_eq_of_lt (by omega)]
        exact align_down_id (by omega) (by omega) (by rw [Nat.add_mod_right]; exact ha)
      simp only [PageRange.take, PageRange.next, hlt', if_pos, hadd]
      have hb : a + (N + 1) * 2 ^ k = (a + 2 ^ k) + N * 2 ^ k := by ring
      rw [hb]
      rw [ih n (a + 2 ^ k) (by rw [Nat.add_mod_right]; exact ha) (by omega) (by omega)]
      rw [List.range_succ_eq_map, List.map_cons, List.map_map]
      congr 1
      · simp
      · apply List.map_congr_left
        intro i _
        simp only [Function.comp_apply, Page.mk.injEq]
        rw [Nat.succ_eq_add_one]
        ring

theorem take_inclusive_empty (S : PageSize) (fuel : Nat) (r : PageRangeInclusive)
    (h : ¬ r.start.start_address ≤ r.end_.start_address) :
    PageRangeInclusive.take S fuel r = [] := by
  cases fuel with
  | zero => rfl
  | succ n => simp [PageRangeInclusive.take, PageRangeInclusive.next, h]

theorem page_add_one (S : PageSize) (k : Nat) (hS : S.SIZE = 2 ^ k) (hk : k ≤ 63)
    (a : Nat) (ha : a % 2 ^ k = 0) (hlt : a + 2 ^ k < 2 ^ 64) :
    Page.add S ⟨a⟩ 1 = (⟨a + 2 ^ k⟩ : Page) := by
  unfold Page.add Page.containing_address
  rw [hS]
  simp only
  congr 1
  rw [one_mul, Nat.mod_eq_of_lt (by omega)]
  exact align_down_id (by omega) (by omega) (by rw [Nat.add_mod_right]; exact ha)

theorem page_sub_one (S : PageSize) (k : Nat) (hS : S.SIZE = 2 ^ k) (hk : k ≤ 63)
    (a : Nat) (ha : a % 2 ^ k = 0) (hge : 2 ^ k ≤ a) (ha64 : a < 2 ^ 64) :
    Page.sub S ⟨a⟩ 1 = (⟨a - 2 ^ k⟩ : Page) := by
  unfold Page.sub Page.containing_address u64_sub
  rw [hS]
  simp only
  congr 1
  have hx63 : (2:Nat) ^ k ≤ 2 ^ 63 := Nat.pow_le_pow_right (by norm_num) hk
  rw [one_mul, Nat.mod_eq_of_lt (show (2:Nat) ^ k < 2 ^ 64 by omega)]
  have h2 : a + 2 ^ 64 - 2 ^ k = (a - 2 ^ k) + 2 ^ 64 := by omega
  rw [h2, Nat.add_mod_right, Nat.mod_eq_of_lt (by omega)]
  apply align_down_id (by omega) (by omega)
  exact Nat.mod_eq_zero_of_dvd
    (Nat.dvd_sub' (Nat.dvd_of_mod_eq_zero ha) dvd_rfl)

theorem range_inclusive_take_count (S : PageSize) (k : Nat) (hS : S.SIZE = 2 ^ k)
    (hk : k ≤ 63) :
    ∀ N fuel a, a % 2 ^ k = 0 → a + N * 2 ^ k < 2 ^ 64 → N + 1 ≤ fuel →
    PageRangeInclusive.take S fuel ⟨⟨a⟩, ⟨a + N * 2 ^ k⟩⟩
      = (List.range (N + 1)).map (fun i => (⟨a + i * 2 ^ k⟩ : Page)) := by
  intro N
  induction N with
  | zero =>
    intro fuel a ha hlt hfuel
    cases fuel with
    | zero => omega
    | succ n =>
      have hx0 : (0:Nat) < 2 ^ k := Nat.two_pow_pos k
      have hx63 : (2:Nat) ^ k ≤ 2 ^ 63 := Nat.pow_le_pow_right (by norm_num) hk
      have ha64 : a < 2 ^ 64 := by omega
      have hmax : 2 ^ 64 - 1 - (S.SIZE - 1) = 2 ^ 64 - 2 ^ k := by rw [hS]; omega
      simp only [Nat.zero_mul, Nat.add_zero] at hlt ⊢
      by_cases hcase : a < 2 ^ 64 - 2 ^ k
      · have hadd := page_add_one S k hS hk a ha (by omega)
        simp only [PageRangeInclusive.take, PageRangeInclusive.next, hmax, le_refl,
          if_pos, hcase, if_true, hadd]
        rw [take_inclusive_empty S n _ (by simp only [not_le]; omega)]
        rw [show List.range 1 = [0] by rfl]
        simp
      · have hbal : (2 ^ 64 - 2 ^ k) % 2 ^ k = 0 :=
          Nat.mod_eq_zero_of_dvd
            (Nat.dvd_sub' (pow_dvd_pow 2 (by omega)) dvd_rfl)
        have haeq : a = 2 ^ 64 - 2 ^ k :=
          aligned_eq_of_lt_add hx0 (Nat.dvd_of_mod_eq_zero ha)
            (Nat.dvd_of_mod_eq_zero hbal) (by omega) (by omega)
        have hsub := page_sub_one S k hS hk a ha (by omega) ha64
        simp only [PageRangeInclusive.take, PageRangeInclusive.next, hmax, le_refl,
          if_pos, hcase, if_false, hsub]
        rw [take_inclusive_empty S n _ (by simp only [not_le]; omega)]
        rw [show List.range 1 = [0] by rfl]
        simp
  | succ N ih =>
    intro fuel a ha hlt hfuel
    cases fuel with
    | zero => omega
    | succ n =>
      have hx0 : (0:Nat) < 2 ^ k := Nat.two_pow_pos k
      have hx63 : (2:Nat) ^ k ≤ 2 ^ 63 := Nat.pow_le_pow_right (by norm_num) hk
      have h1 : 1 * 2 ^ k ≤ (N + 1) * 2 ^ k :=
        Nat.mul_le_mul_right (2 ^ k) (by omega)
      have hmax : 2 ^ 64 - 1 - (S.SIZE - 1) = 2 ^ 64 - 2 ^ k := by rw [hS]; omega
      have hcase : a < 2 ^ 64 - 2 ^ k := by omega
      have hle : a ≤ a + (N + 1) * 2 ^ k := by omega
      have hadd := page_add_one S k hS hk a ha (by omega)
      simp only [PageRangeInclusive.take, PageRangeInclusive.next, hmax, hle,
        if_pos, hcase, if_true, hadd]
      have hb : a + (N + 1) * 2 ^ k = (a + 2 ^ k) + N * 2 ^ k := by ring
      rw [hb]
      rw [ih n (a + 2 ^ k) (by rw [Nat.add_mod_right]; exact ha) (by omega) (by omega)]
      rw [List.range_succ_eq_map (N + 1), List.map_cons, List.map_map]
      congr 1
      · simp
      · apply List.map_congr_left
        intro i _
        simp only [Function.comp_apply, Page.mk.injEq]
        rw [Nat.succ_eq_add_one]
        ring

theorem take_exclusive_empty (S : PageSize) (fuel : Nat) (r : PageRange)
    (h : ¬ r.start.start_address < r.end_.start_address) :
    PageRange.take S fuel r = [] := by
  cases fuel with
  | zero => rfl
  | succ n => simp [PageRange.take, PageRange.next, h]

theorem pairwise_map_range (a s n : Nat) (hs : 0 < s) :
    List.Pairwise (fun p q : Page => p.start_address < q.start_address)
      ((List.range n).map (fun i => (⟨a + i * s⟩ : Page))) := by
  rw [List.pairwise_map]
  refine List.Pairwise.imp ?_ (List.pairwise_lt_range n)
  intro i j hij
  simp only
  have h1 : i * s < j * s := (Nat.mul_lt_mul_right hs).mpr hij
  omega

theorem range_take_general (S : PageSize) (k : Nat) (hS : S.SIZE = 2 ^ k) (hk : k ≤ 63)
    (a b fuel : Nat) (ha : a % 2 ^ k = 0) (hb : b % 2 ^ k = 0) (hb64 : b < 2 ^ 64)
    (hfuel : (b - a) / 2 ^ k ≤ fuel) :
    PageRange.take S fuel ⟨⟨a⟩, ⟨b⟩⟩
      = (List.range ((b - a) / 2 ^ k)).map (fun i => (⟨a + i * 2 ^ k⟩ : Page)) := by
  rcases le_or_lt a b with hab | hab
  · have hdvd : 2 ^ k ∣ (b - a) :=
      Nat.dvd_sub' (Nat.dvd_of_mod_eq_zero hb) (Nat.dvd_of_mod_eq_zero ha)
    have hmul : (b - a) / 2 ^ k * 2 ^ k = b - a := Nat.div_mul_cancel hdvd
    have key := range_take_count S k hS hk ((b - a) / 2 ^ k) fuel a ha (by omega) hfuel
    have hb2 : a + (b - a) / 2 ^ k * 2 ^ k = b := by omega
    rw [hb2] at key
    exact key
  · rw [take_exclusive_empty S fuel _ (by show ¬ a < b; omega)]
    have h0 : (b - a) / 2 ^ k = 0 := by
      have h1 : b - a = 0 := by omega
      rw [h1, Nat.zero_div]
    rw [h0]
    rfl

theorem range_inclusive_take_general (S : PageSize) (k : Nat) (hS : S.SIZE = 2 ^ k)
    (hk : k ≤ 63) (a b fuel : Nat) (ha : a % 2 ^ k = 0) (hb : b % 2 ^ k = 0)
    (hab : a ≤ b) (hb64 : b < 2 ^ 64) (hfuel : (b - a) / 2 ^ k + 1 ≤ fuel) :
    PageRangeInclusive.take S fuel ⟨⟨a⟩, ⟨b⟩⟩
      = (List.range ((b - a) / 2 ^ k + 1)).map (fun i => (⟨a + i * 2 ^ k⟩ : Page)) := by
  have hdvd : 2 ^ k ∣ (b - a) :=
    Nat.dvd_sub' (Nat.dvd_of_mod_eq_zero hb) (Nat.dvd_of_mod_eq_zero ha)
  have hmul : (b - a) / 2 ^ k * 2 ^ k = b - a := Nat.div_mul_cancel hdvd
  have key := range_inclusive_take_count S k hS hk ((b - a) / 2 ^ k) fuel a ha (by omega) hfuel
  have hb2 : a + (b - a) / 2 ^ k * 2 ^ k = b := by omega
  rw [hb2] at key
  exact key

theorem page_sub_one_lt (S : PageSize) (k : Nat) (hS : S.SIZE = 2 ^ k) (hk : k ≤ 63)
    (x : Nat) (hge : 2 ^ k ≤ x) (hx64 : x < 2 ^ 64) :
    (Page.sub S ⟨x⟩ 1).start_address < x := by
  have hx0 : (0:Nat) < 2 ^ k := Nat.two_pow_pos k
  have hx63 : (2:Nat) ^ k ≤ 2 ^ 63 := Nat.pow_le_pow_right (by norm_num) hk
  unfold Page.sub Page.containing_address u64_sub
  simp only
  rw [hS, one_mul, Nat.mod_eq_of_lt (show (2:Nat) ^ k < 2 ^ 64 by omega)]
  have h2 : x + 2 ^ 64 - 2 ^ k = (x - 2 ^ k) + 2 ^ 64 := by omega
  rw [h2, Nat.add_mod_right, Nat.mod_eq_of_lt (by omega),
    align_down_two_pow _ k (by omega) (by omega)]
  have h3 : (x - 2 ^ k) % 2 ^ k ≤ x - 2 ^ k := Nat.mod_le _ _
  omega

theorem page_add_one_gt (S : PageSize) (k : Nat) (hS : S.SIZE = 2 ^ k) (hk : k ≤ 63)
    (x : Nat) (hlt : x < 2 ^ 64 - 2 ^ k) :
    x < (Page.add S ⟨x⟩ 1).start_address := by
  have hx0 : (0:Nat) < 2 ^ k := Nat.two_pow_pos k
  unfold Page.add Page.containing_address
  simp only
  rw [hS, one_mul, Nat.mod_eq_of_lt (by omega),
    align_down_two_pow _ k (by omega) (by omega)]
  have h1 : (x + 2 ^ k) % 2 ^ k = x % 2 ^ k := Nat.add_mod_right x (2 ^ k)
  have h2 : x % 2 ^ k < 2 ^ k := Nat.mod_lt _ hx0
  have h3 : x % 2 ^ k ≤ x := Nat.mod_le x _
  omega

theorem take_inclusive_self (S : PageSize) (k : Nat) (hS : S.SIZE = 2 ^ k) (hk : k ≤ 63)
    (x fx : Nat) (hx64 : x < 2 ^ 64) (hfx : 1 ≤ fx) :
    PageRangeInclusive.take S fx ⟨⟨x⟩, ⟨x⟩⟩ = [⟨x⟩] := by
  cases fx with
  | zero => omega
  | succ n =>
    have hx0 : (0:Nat) < 2 ^ k := Nat.two_pow_pos k
    have hx63 : (2:Nat) ^ k ≤ 2 ^ 63 := Nat.pow_le_pow_right (by norm_num) hk
    have hmax : 2 ^ 64 - 1 - (S.SIZE - 1) = 2 ^ 64 - 2 ^ k := by rw [hS]; omega
    by_cases hcase : x < 2 ^ 64 - 2 ^ k
    · have hgt := page_add_one_gt S k hS hk x hcase
      simp only [PageRangeInclusive.take, PageRangeInclusive.next, hmax, le_refl, if_pos,
        hcase, if_true]
      rw [take_inclusive_empty S n _
        (by show ¬ (Page.add S ⟨x⟩ 1).start_address ≤ x; omega)]
    · have hge : 2 ^ k ≤ x := by omega
      have hlt2 := page_sub_one_lt S k hS hk x hge hx64
      simp only [PageRangeInclusive.take, PageRangeInclusive.next, hmax, le_refl, if_pos,
        hcase, if_false]
      rw [take_inclusive_empty S n _
        (by show ¬ x ≤ (Page.sub S ⟨x⟩ 1).start_address; omega)]

/-! Claim theorems. -/

/-- C1: the spec says the translator walks the active 4-level table from
level 4 down to level 1, using each level's own 9-bit index, and that on a
synthetic present 4-level chain whose level-1 entry maps frame `0x4000`,
translating an address with offset `0x23` yields `0x4023`. The code instead
builds `table_indexes = [p1, p2, p3, p4]` and walks them in that order, so on
the spec's chain (built for a p4-first walk, `chain_mem`) it reads the root
table at the level-1 index, finds a non-present entry and returns `None`
(`notPresent`), while the spec-ordered walk over the same memory yields
`0x4023`. This evaluates the code at the failing input. -/
theorem inner_translate_addr_reversed_walk :
    inner_translate_addr chain_mem 0x1000 0 chain_addr = .notPresent ∧
    spec_translate_addr chain_mem 0x1000 0 chain_addr = .ok 0x4023 := by
  constructor <;> decide

/-- C2 counterexample: the claim says a walk reaching a huge (and present)
entry fails with an explicit huge-frame-unsupported result returned to the
caller and never panics. At this concrete input the first entry read
(`huge_mem 0x1008 = 0x2081`) has PRESENT and HUGE_PAGE set, and
`inner_translate_addr` takes the `panic!("huge pages not supported")` arm
(modelled by `panicHuge`, which is not a value returned to the caller),
refuting the claim as stated. -/
theorem inner_translate_addr_huge_panic_cex :
    inner_translate_addr huge_mem 0x1000 0 0x1000 = .panicHuge := by decide

/-- C2 (amended): when the page-table walk reads an entry whose present and
huge-page flags are both set, `PageTableEntry::frame` does return the
explicit `HugeFrame` error, but `inner_translate_addr`'s loop converts it
into a panic (`panic!("huge pages not supported")`, modelled `panicHuge`)
instead of returning an explicit result to the caller. -/
theorem translate_walk_panics_on_huge (mem : Nat → Nat) (pmo addr frame index : Nat) (rest : List Nat)
    (hp : flags_contains
      (PageTableEntry.flags (mem (((pmo + frame) % 2 ^ 64 + 8 * index) % 2 ^ 64)))
      PRESENT = true)
    (hh : flags_contains
      (PageTableEntry.flags (mem (((pmo + frame) % 2 ^ 64 + 8 * index) % 2 ^ 64)))
      HUGE_PAGE = true) :
    PageTableEntry.frame (mem (((pmo + frame) % 2 ^ 64 + 8 * index) % 2 ^ 64))
      = .error .HugeFrame ∧
    translate_walk mem pmo addr (index :: rest) frame = .panicHuge := by
  have hfr := frame_huge_of_flags _ hp hh
  refine ⟨hfr, ?_⟩
  simp only [translate_walk, hfr]

/-- Witness for C2's amended theorem at a concrete memory and entry. -/
theorem translate_walk_panics_on_huge_witness :
    PageTableEntry.frame (huge_mem (((0 + 0x1000) % 2 ^ 64 + 8 * 1) % 2 ^ 64))
      = .error .HugeFrame ∧
    translate_walk huge_mem 0 777 (1 :: [0, 0, 0]) 0x1000 = .panicHuge :=
  translate_walk_panics_on_huge huge_mem 0 777 0x1000 1 [0, 0, 0] (by decide) (by decide)

/-- C3: the spec says that after building the IDT, the double-fault slot has
its present bit (bit 15 of the options word) set and its IST-index field
(bits 0-2) selecting the reserved dedicated stack. The code calls
`set_present(true)` first and then overwrites the whole options word with
`IDT_ENTRY_OPTION_INTERRUPT_GATE | 1 = 0x0E01`, whose bit 15 is clear: the
resulting entry has the IST field equal to 1 as intended but its present bit
is 0, contradicting the claim. This evaluates the built entry. -/
theorem double_fault_entry_present_bit_clear (addr cs : Nat) :
    (double_fault_idt_entry addr cs).options = 0x0E01 ∧
    (double_fault_idt_entry addr cs).options &&& IDT_ENTRY_OPTION_PRESENT = 0 ∧
    (double_fault_idt_entry addr cs).options &&& 7 = 1 := by
  have h : (double_fault_idt_entry addr cs).options = 0x0E01 := rfl
  exact ⟨h, by rw [h]; decide, by rw [h]; decide⟩

/-- C4: whenever the page-table walk reads an entry whose PRESENT flag is
clear (at any level, i.e. from any reached walk state), the translation
returns the explicit not-present result (`None` in the source, `notPresent`
here) rather than crashing. -/
theorem translate_walk_not_present_explicit (mem : Nat → Nat) (pmo addr frame index : Nat) (rest : List Nat)
    (hp : flags_contains
      (PageTableEntry.flags (mem (((pmo + frame) % 2 ^ 64 + 8 * index) % 2 ^ 64)))
      PRESENT = false) :
    translate_walk mem pmo addr (index :: rest) frame = .notPresent := by
  have hfr := frame_not_present_of_flags _ hp
  simp only [translate_walk, hfr]

/-- Witness for C4 at a concrete memory whose read entry is zero. -/
theorem translate_walk_not_present_explicit_witness :
    translate_walk chain_mem 0 999 (7 :: [1, 2, 3]) 0x2000 = .notPresent :=
  translate_walk_not_present_explicit chain_mem 0 999 0x2000 7 [1, 2, 3] (by decide)

/-- C5: for every 64-bit address `a`, canonicalization
(`new_virt_truncate`) is idempotent and its result has bits 48-63 equal to
bit 47. -/
theorem new_virt_truncate_idempotent_sign_extends (a : Nat) (_ha : a < 2 ^ 64) :
    new_virt_truncate (new_virt_truncate a) = new_virt_truncate a ∧
    ∀ i, 48 ≤ i → i ≤ 63 →
      (new_virt_truncate a).testBit i = (new_virt_truncate a).testBit 47 := by
  have hm : a % 2 ^ 48 < 2 ^ 48 := Nat.mod_lt _ (by norm_num)
  rw [new_virt_truncate_eq a]
  by_cases hc : a % 2 ^ 48 < 2 ^ 47
  · rw [if_pos hc]
    constructor
    · rw [new_virt_truncate_eq]
      have h1 : a % 2 ^ 48 % 2 ^ 48 = a % 2 ^ 48 := by omega
      rw [h1, if_pos hc]
    · intro i h48 h63
      have hfalse : ∀ j, 47 ≤ j → (a % 2 ^ 48).testBit j = false := by
        intro j hj
        apply Nat.testBit_lt_two_pow
        calc a % 2 ^ 48 < 2 ^ 47 := hc
          _ ≤ 2 ^ j := Nat.pow_le_pow_right (by norm_num) hj
      rw [hfalse i (by omega), hfalse 47 (le_refl _)]
  · rw [if_neg hc]
    push_neg at hc
    constructor
    · rw [new_virt_truncate_eq]
      have h1 : (a % 2 ^ 48 + (2 ^ 64 - 2 ^ 48)) % 2 ^ 48 = a % 2 ^ 48 := by omega
      rw [h1, if_neg (by omega)]
    · intro i h48 h63
      rw [canonical_bits_high _ hc hm i (by omega) h63,
          canonical_bits_high _ hc hm 47 (le_refl _) (by norm_num)]

/-- Witness for C5 at `a = 3`. -/
theorem new_virt_truncate_idempotent_sign_extends_witness :
    new_virt_truncate (new_virt_truncate 3) = new_virt_truncate 3 ∧
    ∀ i, 48 ≤ i → i ≤ 63 →
      (new_virt_truncate 3).testBit i = (new_virt_truncate 3).testBit 47 :=
  new_virt_truncate_idempotent_sign_extends 3 (by norm_num)

/-- C6 counterexample: at `a = 2^63` the four indices and the offset are all
zero, so the reassembled value is `0`, and neither canonicalizing the
reassembly nor reassembling the canonicalization reproduces `a`: the
round-trip part of the claim fails for non-canonical addresses. -/
theorem reassemble_roundtrip_cex :
    ¬ (new_virt_truncate (reassemble (2 ^ 63)) = 2 ^ 63) ∧
    ¬ (reassemble (new_virt_truncate (2 ^ 63)) = 2 ^ 63) := by
  constructor <;> decide

/-- C6 (amended): for every 64-bit address `a`, each per-level 9-bit index
lies in `[0,512)` and the page offset in `[0,4096)`; the reassembly
`p4<<39 | p3<<30 | p2<<21 | p1<<12 | offset` equals `a % 2^48`, hence
canonicalizing it agrees with canonicalizing `a`, and it reproduces `a`
exactly when `a` is canonical (rather than for every `a`, as claimed). -/
theorem index_offset_ranges_reassemble (a : Nat) (_ha : a < 2 ^ 64) :
    p1_index a < 512 ∧ p2_index a < 512 ∧ p3_index a < 512 ∧ p4_index a < 512 ∧
    page_offset a < 4096 ∧
    reassemble a = a % 2 ^ 48 ∧
    new_virt_truncate (reassemble a) = new_virt_truncate a ∧
    (new_virt_truncate a = a → new_virt_truncate (reassemble a) = a) := by
  have hcanon : new_virt_truncate (a % 2 ^ 48) = new_virt_truncate a := by
    rw [new_virt_truncate_eq (a % 2 ^ 48), new_virt_truncate_eq a]
    have h : a % 2 ^ 48 % 2 ^ 48 = a % 2 ^ 48 := by omega
    rw [h]
  refine ⟨?_, ?_, ?_, ?_, ?_, reassemble_eq a, ?_, ?_⟩
  · rw [p1_index_eq]; omega
  · rw [p2_index_eq]; omega
  · rw [p3_index_eq]; omega
  · rw [p4_index_eq]; omega
  · rw [page_offset_eq]; omega
  · rw [reassemble_eq]; exact hcanon
  · intro h
    rw [reassemble_eq, hcanon, h]

/-- Witness for C6's amended theorem at `a = 3`. -/
theorem index_offset_ranges_reassemble_witness :
    p1_index 3 < 512 ∧ p2_index 3 < 512 ∧ p3_index 3 < 512 ∧ p4_index 3 < 512 ∧
    page_offset 3 < 4096 ∧
    reassemble 3 = 3 % 2 ^ 48 ∧
    new_virt_truncate (reassemble 3) = new_virt_truncate 3 ∧
    (new_virt_truncate 3 = 3 → new_virt_truncate (reassemble 3) = 3) :=
  index_offset_ranges_reassemble 3 (by norm_num)

/-- C7: for every address and page size, `Page::from_start_address` succeeds
(returning the page starting at that address) iff the address is exactly
size-aligned and fails with the alignment error otherwise, and
`Page::containing_address` always succeeds with a start address that is
at most `addr` and greater than `addr - size` (as integers). -/
theorem page_from_start_address_containing_address (S : PageSize) (addr : Nat) (ha : addr < 2 ^ 64) :
    (addr % S.SIZE = 0 → Page.from_start_address S addr = .ok ⟨addr⟩) ∧
    (addr % S.SIZE ≠ 0 → Page.from_start_address S addr = .error ⟨⟩) ∧
    (Page.containing_address S addr).start_address ≤ addr ∧
    (addr : Int) - (S.SIZE : Int) < ((Page.containing_address S addr).start_address : Int) := by
  obtain ⟨k, hk12, hk30, hS⟩ := PageSize.size_two_pow S
  have hk64 : k ≤ 64 := by omega
  have hca : (Page.containing_address S addr).start_address = addr - addr % 2 ^ k := by
    unfold Page.containing_address
    simp only
    rw [hS]
    exact align_down_two_pow addr k hk64 ha
  have hal : is_aligned addr S.SIZE = true ↔ addr % S.SIZE = 0 := by
    rw [hS]
    exact is_aligned_iff addr k hk64 ha
  have hle : addr % 2 ^ k ≤ addr := Nat.mod_le addr (2 ^ k)
  have hlt : addr % 2 ^ k < 2 ^ k := Nat.mod_lt _ (Nat.two_pow_pos k)
  refine ⟨?_, ?_, ?_, ?_⟩
  · intro h
    unfold Page.from_start_address
    rw [if_neg (by simp [hal.mpr h])]
    congr 1
    apply page_ext
    rw [hca]
    show addr - addr % 2 ^ k = addr
    rw [hS] at h
    omega
  · intro h
    unfold Page.from_start_address
    rw [if_pos (by simp [hal]; exact h)]
  · rw [hca]; omega
  · rw [hca, hS]
    have hcast : ((addr - addr % 2 ^ k : Nat) : Int) = (addr : Int) - ((addr % 2 ^ k : Nat) : Int) :=
      Int.ofNat_sub hle
    rw [hcast]
    have h2 : ((addr % 2 ^ k : Nat) : Int) < ((2 ^ k : Nat) : Int) := by exact_mod_cast hlt
    omega

/-- Witness for C7 at the unaligned address 4097 with 4 KiB pages. -/
theorem page_from_start_address_containing_address_witness :
    (4097 % PageSize.SIZE .Size4KiB = 0 →
      Page.from_start_address .Size4KiB 4097 = .ok ⟨4097⟩) ∧
    (4097 % PageSize.SIZE .Size4KiB ≠ 0 →
      Page.from_start_address .Size4KiB 4097 = .error ⟨⟩) ∧
    (Page.containing_address .Size4KiB 4097).start_address ≤ 4097 ∧
    (4097 : Int) - (PageSize.SIZE .Size4KiB : Int)
      < ((Page.containing_address .Size4KiB 4097).start_address : Int) :=
  page_from_start_address_containing_address .Size4KiB 4097 (by norm_num)

/-- C8: for same-sized aligned pages, iterating `Page::range(start, end)`
yields exactly `max(0, end - start)` pages (the truncated Nat difference in
page units) in strictly increasing order; `range(x, x)` yields no page and
`range_inclusive(x, x)` yields exactly the one page `x`. Iteration is
modelled by running the source `next` under any sufficient fuel. -/
theorem page_range_iteration_counts (S : PageSize) (a b x fuel fx : Nat)
    (ha : a % S.SIZE = 0) (hb : b % S.SIZE = 0) (hb64 : b < 2 ^ 64) (hx64 : x < 2 ^ 64)
    (hfuel : (b - a) / S.SIZE ≤ fuel) (hfx : 1 ≤ fx) :
    (PageRange.take S fuel ⟨⟨a⟩, ⟨b⟩⟩).length = (b - a) / S.SIZE ∧
    List.Pairwise (fun p q : Page => p.start_address < q.start_address)
      (PageRange.take S fuel ⟨⟨a⟩, ⟨b⟩⟩) ∧
    PageRange.take S fuel ⟨⟨x⟩, ⟨x⟩⟩ = [] ∧
    PageRangeInclusive.take S fx ⟨⟨x⟩, ⟨x⟩⟩ = [⟨x⟩] := by
  obtain ⟨k, hk12, hk30, hS⟩ := PageSize.size_two_pow S
  have hk63 : k ≤ 63 := by omega
  rw [hS] at ha hb hfuel ⊢
  have hmap := range_take_general S k hS hk63 a b fuel ha hb hb64 hfuel
  refine ⟨?_, ?_, ?_, ?_⟩
  · rw [hmap]
    simp
  · rw [hmap]
    exact pairwise_map_range a (2 ^ k) _ (Nat.two_pow_pos k)
  · exact take_exclusive_empty S fuel _ (by show ¬ x < x; omega)
  · exact take_inclusive_self S k hS hk63 x fx hx64 hfx

/-- Witness for C8 with 4 KiB pages on `[0, 8192)` and `x = 4096`. -/
theorem page_range_iteration_counts_witness :
    (PageRange.take .Size4KiB 2 ⟨⟨0⟩, ⟨8192⟩⟩).length
      = (8192 - 0) / PageSize.SIZE .Size4KiB ∧
    List.Pairwise (fun p q : Page => p.start_address < q.start_address)
      (PageRange.take .Size4KiB 2 ⟨⟨0⟩, ⟨8192⟩⟩) ∧
    PageRange.take .Size4KiB 2 ⟨⟨4096⟩, ⟨4096⟩⟩ = [] ∧
    PageRangeInclusive.take .Size4KiB 1 ⟨⟨4096⟩, ⟨4096⟩⟩ = [⟨4096⟩] :=
  page_range_iteration_counts .Size4KiB 0 8192 4096 2 1 (by decide) (by decide) (by norm_num) (by norm_num)
    (by norm_num [PageSize.SIZE]) (by norm_num)

/-- C9: the inclusive page-range iterator yields pages in strictly
increasing order, never past its end (so iteration stays inside the 64-bit
address space), and when its start is the maximum representable page
(`2^64 - SIZE`) the source `next` decrements `end` instead of incrementing
`start`, so the maximum page is yielded and iteration terminates without
overflow. -/
theorem page_range_inclusive_max_page (S : PageSize) (a b fuel : Nat)
    (ha : a % S.SIZE = 0) (hb : b % S.SIZE = 0) (hab : a ≤ b) (hb64 : b < 2 ^ 64)
    (hfuel : (b - a) / S.SIZE + 1 ≤ fuel) :
    List.Pairwise (fun p q : Page => p.start_address < q.start_address)
      (PageRangeInclusive.take S fuel ⟨⟨a⟩, ⟨b⟩⟩) ∧
    (∀ p ∈ PageRangeInclusive.take S fuel ⟨⟨a⟩, ⟨b⟩⟩, p.start_address ≤ b) ∧
    PageRangeInclusive.next S ⟨⟨2 ^ 64 - S.SIZE⟩, ⟨2 ^ 64 - S.SIZE⟩⟩
      = some (⟨2 ^ 64 - S.SIZE⟩, ⟨⟨2 ^ 64 - S.SIZE⟩, Page.sub S ⟨2 ^ 64 - S.SIZE⟩ 1⟩) ∧
    (Page.sub S ⟨2 ^ 64 - S.SIZE⟩ 1).start_address < 2 ^ 64 - S.SIZE ∧
    PageRangeInclusive.take S fuel ⟨⟨2 ^ 64 - S.SIZE⟩, ⟨2 ^ 64 - S.SIZE⟩⟩
      = [⟨2 ^ 64 - S.SIZE⟩] := by
  obtain ⟨k, hk12, hk30, hS⟩ := PageSize.size_two_pow S
  have hk63 : k ≤ 63 := by omega
  have hx0 : (0:Nat) < 2 ^ k := Nat.two_pow_pos k
  have hx63 : (2:Nat) ^ k ≤ 2 ^ 63 := Nat.pow_le_pow_right (by norm_num) hk63
  rw [hS] at ha hb hfuel ⊢
  have hmap := range_inclusive_take_general S k hS hk63 a b fuel ha hb hab hb64 hfuel
  have hdvd : 2 ^ k ∣ (b - a) :=
    Nat.dvd_sub' (Nat.dvd_of_mod_eq_zero hb) (Nat.dvd_of_mod_eq_zero ha)
  have hmul : (b - a) / 2 ^ k * 2 ^ k = b - a := Nat.div_mul_cancel hdvd
  refine ⟨?_, ?_, ?_, ?_, ?_⟩
  · rw [hmap]
    exact pairwise_map_range a (2 ^ k) _ (Nat.two_pow_pos k)
  · rw [hmap]
    intro p hp
    simp only [List.mem_map, List.mem_range] at hp
    obtain ⟨i, hi, rfl⟩ := hp
    simp only
    have h1 : i * 2 ^ k ≤ (b - a) / 2 ^ k * 2 ^ k :=
      Nat.mul_le_mul_right (2 ^ k) (by omega)
    omega
  · have hmax : 2 ^ 64 - 1 - (S.SIZE - 1) = 2 ^ 64 - 2 ^ k := by rw [hS]; omega
    simp only [PageRangeInclusive.next, hmax, le_refl, if_pos]
    rw [if_neg (by omega)]
  · exact page_sub_one_lt S k hS hk63 _ (by omega) (by omega)
  · exact take_inclusive_self S k hS hk63 _ fuel (by omega)
      (le_trans (Nat.le_add_left 1 _) hfuel)

/-- Witness for C9 with 4 KiB pages on `[0, 4096]`. -/
theorem page_range_inclusive_max_page_witness :
    List.Pairwise (fun p q : Page => p.start_address < q.start_address)
      (PageRangeInclusive.take .Size4KiB 3 ⟨⟨0⟩, ⟨4096⟩⟩) ∧
    (∀ p ∈ PageRangeInclusive.take .Size4KiB 3 ⟨⟨0⟩, ⟨4096⟩⟩, p.start_address ≤ 4096) ∧
    PageRangeInclusive.next .Size4KiB
        ⟨⟨2 ^ 64 - PageSize.SIZE .Size4KiB⟩, ⟨2 ^ 64 - PageSize.SIZE .Size4KiB⟩⟩
      = some (⟨2 ^ 64 - PageSize.SIZE .Size4KiB⟩,
          ⟨⟨2 ^ 64 - PageSize.SIZE .Size4KiB⟩,
            Page.sub .Size4KiB ⟨2 ^ 64 - PageSize.SIZE .Size4KiB⟩ 1⟩) ∧
    (Page.sub .Size4KiB ⟨2 ^ 64 - PageSize.SIZE .Size4KiB⟩ 1).start_address
      < 2 ^ 64 - PageSize.SIZE .Size4KiB ∧
    PageRangeInclusive.take .Size4KiB 3
        ⟨⟨2 ^ 64 - PageSize.SIZE .Size4KiB⟩, ⟨2 ^ 64 - PageSize.SIZE .Size4KiB⟩⟩
      = [⟨2 ^ 64 - PageSize.SIZE .Size4KiB⟩] :=
  page_range_inclusive_max_page .Size4KiB 0 4096 3 (by decide) (by norm_num [PageSize.SIZE]) (by norm_num)
    (by norm_num) (by norm_num [PageSize.SIZE])

/-- C10: for every entry whose PRESENT flag is clear,
`PageTableEntry::frame` returns the not-present error even when HUGE_PAGE is
also set (the present check has priority), and the huge-frame error is only
returned for entries that are both present and huge. -/
theorem frame_present_check_priority (e : Nat)
    (hp : flags_contains (PageTableEntry.flags e) PRESENT = false) :
    PageTableEntry.frame e = .error .FrameNotPresent ∧
    (∀ e2 : Nat, PageTableEntry.frame e2 = .error .HugeFrame →
      flags_contains (PageTableEntry.flags e2) PRESENT = true ∧
      flags_contains (PageTableEntry.flags e2) HUGE_PAGE = true) := by
  constructor
  · unfold PageTableEntry.frame
    simp [hp]
  · intro e2 h
    unfold PageTableEntry.frame at h
    by_cases h1 : flags_contains (PageTableEntry.flags e2) PRESENT
    · by_cases h2 : flags_contains (PageTableEntry.flags e2) HUGE_PAGE
      · exact ⟨h1, h2⟩
      · simp [h1, h2] at h
    · simp [h1] at h

/-- Witness for C10 at entry `128` (HUGE_PAGE set, PRESENT clear). -/
theorem frame_present_check_priority_witness :
    PageTableEntry.frame 128 = .error .FrameNotPresent ∧
    (∀ e2 : Nat, PageTableEntry.frame e2 = .error .HugeFrame →
      flags_contains (PageTableEntry.flags e2) PRESENT = true ∧
      flags_contains (PageTableEntry.flags e2) HUGE_PAGE = true) :=
  frame_present_check_priority 128 (by decide)

end Krabbos
